import Mathlib

/-
Shallow embedding of the telegraf metric pipeline components that the
specification talks about: the canonical metric model and its callers,
the dcos input plugin's point aggregation (createPoints, addMetrics),
the mqtt/homie output helpers (normalizeID, convertType), the
prometheus_client output's Init/Write, the influxdb UDP client's Write
contract as pinned by its tests, and the spec-level Buffer/Accumulator.

Go strings are modelled as Lean strings operating on their character
lists; every constant involved is ASCII, where Go's byte-wise view and
the character-wise view coincide (UTF-8 byte order equals code-point
order, so byte-wise lexicographic comparison of strings equals
character-wise comparison).
-/

/- ---------------------------------------------------------------
   Go string ordering and sorting (sort.Strings in the dcos plugin)
   --------------------------------------------------------------- -/

/-- Lexicographic comparison of character lists by code point, the order
`sort.Strings` uses (byte-wise on UTF-8, which agrees with code-point
order). -/
def charListLe : List Char → List Char → Bool
  | [], _ => true
  | _ :: _, [] => false
  | a :: as, b :: bs =>
    if a.val.toNat < b.val.toNat then true
    else if b.val.toNat < a.val.toNat then false
    else charListLe as bs

/-- Go string `<=` as a boolean function on the underlying characters. -/
def strLe (a b : String) : Bool := charListLe a.data b.data

/-- The propositional form of `strLe`, used as the sorting relation. -/
def strLeRel (a b : String) : Prop := strLe a b = true

instance : DecidableRel strLeRel := fun a b => instDecidableEqBool (strLe a b) true

/-- Go `sort.Strings`: sort a list of strings into nondecreasing order. -/
def sortStrings (l : List String) : List String := List.insertionSort strLeRel l

/- ---------------------------------------------------------------
   Metric model
   --------------------------------------------------------------- -/

/-- A metric field value: one of the six kinds the data model allows
(signed integer, unsigned integer, float64, boolean, string,
timestamp).  float64 payloads are carried by an integer marker: no
arithmetic is ever performed on them in the embedded code, only
identity and the Go `int64(·)` conversion, which the `FieldVal.i64`
versus `FieldVal.f64` constructor distinction records. -/
inductive FieldVal where
  | i64 (v : Int)
  | u64 (v : Nat)
  | f64 (v : Int)
  | boolean (b : Bool)
  | str (s : String)
  | ts (t : Int)
deriving DecidableEq, Repr

/-- The canonical metric: a measurement name, a tag mapping, a field
mapping and a nanosecond timestamp.  Go maps are modelled as
association lists. -/
structure Metric where
  name : String
  tags : List (String × String)
  fields : List (String × FieldVal)
  time : Int
deriving DecidableEq, Repr

/-- Construction `metric.New` as its callers in the sources pin it: a single return
value, so construction is total and simply records the arguments (the
tests build metrics with empty field maps and use them). -/
def metricNew (name : String) (tags : List (String × String))
    (fields : List (String × FieldVal)) (time : Int) : Metric :=
  ⟨name, tags, fields, time⟩

/-- Go map assignment `m[k] = v` on an association list: overwrite the
existing entry for `k` in place, or append a new entry.  The operation
is total - it never fails. -/
def mapInsert (k : String) (v : α) : List (String × α) → List (String × α)
  | [] => [(k, v)]
  | (k2, v2) :: rest =>
    if k2 = k then (k, v) :: rest else (k2, v2) :: mapInsert k v rest

/-- Go map lookup `m[k]`. -/
def mapLookup (k : String) : List (String × α) → Option α
  | [] => none
  | (k2, v2) :: rest => if k2 = k then some v2 else mapLookup k rest

/-- Modelled from the spec: `Metric.AddTag` during accumulation (the
metric model implementation is not among the sources; the spec states
that overwrite of an existing tag key is silent, last write wins, and
the dcos plugin's `addMetrics` uses exactly Go map assignment for its
tag updates). -/
def Metric.addTag (m : Metric) (k v : String) : Metric :=
  { m with tags := mapInsert k v m.tags }

/-- Modelled from the spec: `Metric.AddField` during accumulation, the
field counterpart of `Metric.addTag`. -/
def Metric.addField (m : Metric) (k : String) (v : FieldVal) : Metric :=
  { m with fields := mapInsert k v m.fields }

/- ---------------------------------------------------------------
   Spec-level Buffer (section 4.4; the buffer implementation is not
   among the sources)
   --------------------------------------------------------------- -/

/-- Modelled from the spec: the per-destination bounded Buffer, a FIFO
sequence (oldest first) with a fixed capacity. -/
structure Buffer where
  cap : Nat
  data : List Metric
deriving DecidableEq, Repr

/-- Modelled from the spec: `Push` under the default drop-oldest
overflow policy - when the buffer is at capacity the oldest metric is
evicted to make room for the new one. -/
def Buffer.push (b : Buffer) (m : Metric) : Buffer :=
  if b.data.length < b.cap then ⟨b.cap, b.data ++ [m]⟩
  else ⟨b.cap, b.data.tail ++ [m]⟩

/-- A sequence of pushes, in order. -/
def Buffer.pushAll (b : Buffer) (ms : List Metric) : Buffer :=
  ms.foldl Buffer.push b

/- ---------------------------------------------------------------
   Spec-level Accumulator (section 4.2; the accumulator implementation
   is not among the sources, the dcos plugin is one of its callers)
   --------------------------------------------------------------- -/

/-- Modelled from the spec: the per-run Accumulator state - the metrics
forwarded so far and the non-fatal errors recorded so far. -/
structure Accumulator where
  metrics : List Metric
  errors : List String
deriving DecidableEq, Repr

/-- Modelled from the spec: `AddError` records a non-fatal error for
the current run; the collected errors are surfaced after the run. -/
def Accumulator.addError (acc : Accumulator) (e : String) : Accumulator :=
  { acc with errors := acc.errors ++ [e] }

/-- Modelled from the spec: `AddFields` builds a metric from the raw
tuple and forwards it. -/
def Accumulator.addFields (acc : Accumulator) (name : String)
    (tags : List (String × String)) (fields : List (String × FieldVal))
    (time : Int) : Accumulator :=
  { acc with metrics := acc.metrics ++ [metricNew name tags fields time] }

/- ---------------------------------------------------------------
   dcos input plugin: createPoints / addMetrics
   --------------------------------------------------------------- -/

/-- One datapoint of the dcos metrics payload.  `value` is a float64 in
the source; it is carried here by an integer marker, since
`createPoints` never computes with it (it only stores it, either
converted by Go `int64(·)` or unchanged). -/
structure Datapoint where
  name : String
  tags : List (String × String)
  unit : String
  value : Int
deriving DecidableEq, Repr

/-- A dimension value of the dcos metrics payload
(`map[string]interface{}`): the type switch in `createPoints` looks at
strings and string maps and ignores every other dynamic type. -/
inductive DimValue where
  | str (s : String)
  | smap (m : List (String × String))
  | other
deriving DecidableEq, Repr

/-- The dcos metrics payload handed to `createPoints`. -/
structure Metrics where
  datapoints : List Datapoint
  dimensions : List (String × DimValue)
deriving DecidableEq, Repr

/-- An output point of `createPoints`. -/
structure Point where
  tags : List (String × String)
  labels : List (String × String)
  fields : List (String × FieldVal)
deriving DecidableEq, Repr

/-- Go `strings.ReplaceAll(name, ".", "_")` - both patterns are single
characters, so this is a character map. -/
def replaceDots (s : String) : String :=
  ⟨s.data.map fun c => if c = '.' then '_' else c⟩

/-- Go `strings.HasSuffix` on the underlying characters. -/
def goHasSuffix (sfx s : String) : Bool := sfx.data.isSuffixOf s.data

/-- Go `strings.TrimPrefix` on the underlying characters: drop the leading
occurrence of `pre` when present. -/
def goTrimLeading (pre s : String) : String :=
  if pre.data.isPrefixOf s.data then ⟨s.data.drop pre.data.length⟩ else s

/-- The field key `createPoints` derives from a datapoint: dots become
underscores, a `_bytes` suffix is appended for byte-unit datapoints
that do not already carry it, and afterwards a leading
`dcos_metrics_module_` marker is trimmed. -/
def fieldKeyOf (dp : Datapoint) : String :=
  let k := replaceDots dp.name
  let k := if dp.unit == "bytes" && !(goHasSuffix "_bytes" k) then k ++ "_bytes" else k
  goTrimLeading "dcos_metrics_module_" k

/-- The field value `createPoints` stores for a datapoint: byte-unit
datapoints are stored through Go `int64(·)` as signed integers, all
others keep their float64 value unchanged. -/
def storedVal (dp : Datapoint) : FieldVal :=
  if dp.unit == "bytes" then .i64 dp.value else .f64 dp.value

/-- The series key `createPoints` groups datapoints by: the sorted
`k=v` renderings of the tags joined with `","`. -/
def seriesKey (tags : List (String × String)) : String :=
  String.intercalate "," (sortStrings (tags.map fun kv => kv.1 ++ "=" ++ kv.2))

/-- Update the point stored under `key` with one more field (Go map
assignment on the point's field map). -/
def addFieldAt (key fk : String) (v : FieldVal) :
    List (String × Point) → List (String × Point)
  | [] => []
  | (k2, p) :: rest =>
    if k2 = key then (k2, { p with fields := mapInsert fk v p.fields }) :: rest
    else (k2, p) :: addFieldAt key fk v rest

/-- One iteration of the datapoint loop of `createPoints`: look the
series key up in the points map, create the point on a miss (its tags
are the datapoint's tags), and store the field. -/
def insertDatapoint (pts : List (String × Point)) (dp : Datapoint) :
    List (String × Point) :=
  let key := seriesKey dp.tags
  if (mapLookup key pts).isSome then addFieldAt key (fieldKeyOf dp) (storedVal dp) pts
  else pts ++ [(key, { tags := dp.tags, labels := [], fields := [(fieldKeyOf dp, storedVal dp)] })]

/-- The points map built by the first loop of `createPoints`, keyed by
series key in first-encounter order (the Go map iteration order of the
result list is immaterial to the properties proved below). -/
def createPointsMap (m : Metrics) : List (String × Point) :=
  m.datapoints.foldl insertDatapoint []

/-- The dimensions loop of `createPoints`: string dimensions become
tags, the `labels` string-map dimension is merged into the labels, all
other dynamic types are ignored.  Fields are never touched. -/
def decorate (dims : List (String × DimValue)) (p : Point) : Point :=
  dims.foldl
    (fun q kv =>
      match kv.2 with
      | .str v => { q with tags := mapInsert kv.1 v q.tags }
      | .smap lm =>
        if kv.1 = "labels" then
          { q with labels := lm.foldl (fun acc kv2 => mapInsert kv2.1 kv2.2 acc) q.labels }
        else q
      | .other => q)
    p

/-- Function `createPoints`: group the datapoints by series key, then decorate
every point with the dimensions. -/
def createPoints (m : Metrics) : List Point :=
  (createPointsMap m).map fun kp => decorate m.dimensions kp.2

/-- The tag map `addMetrics` builds for one point: the cluster tag,
then the requested tag dimensions, then the labels - each added with
Go map assignment, so later writes silently overwrite earlier ones. -/
def addMetricsTags (cluster : String) (tagDimensions : List String) (p : Point) :
    List (String × String) :=
  let t0 := mapInsert "cluster" cluster []
  let t1 := tagDimensions.foldl
    (fun acc tagkey =>
      match mapLookup tagkey p.tags with
      | some v => mapInsert tagkey v acc
      | none => acc)
    t0
  p.labels.foldl (fun acc kv => mapInsert kv.1 kv.2 acc) t1

/- ---------------------------------------------------------------
   mqtt/homie output: normalizeID and convertType
   --------------------------------------------------------------- -/

/-- Membership in the regexp character class `[a-z0-9]` of
`normalizeID` (the complement class is what gets replaced). -/
def isIDChar (c : Char) : Bool :=
  (decide (97 ≤ c.toNat) && decide (c.toNat ≤ 122)) ||
  (decide (48 ≤ c.toNat) && decide (c.toNat ≤ 57))

/-- The replacement `idRe.ReplaceAllString(id, "-")` for the regexp
`([^a-z0-9]+)`: every maximal run of characters outside `[a-z0-9]`
becomes a single hyphen.  The boolean argument records whether the
current position is inside such a run whose hyphen was already
emitted. -/
def collapse : Bool → List Char → List Char
  | _, [] => []
  | inRun, c :: cs =>
    if isIDChar c then c :: collapse false cs
    else if inRun then collapse true cs
    else '-' :: collapse true cs

/-- Go `strings.Trim(id, "-")`: drop hyphens from both ends. -/
def trimHyphens (l : List Char) : List Char :=
  ((l.dropWhile (· == '-')).reverse.dropWhile (· == '-')).reverse

/-- Go `strings.ToLower` character-wise.  Lean's `Char.toLower` lowers the
basic latin range; characters outside it are left unchanged here, which
only matters for the handful of non-latin code points Go lowercases
into `a`-`z` - every other non-`[a-z0-9]` character is replaced by the
next step either way. -/
def goToLower (c : Char) : Char := c.toLower

/-- Function `normalizeID` from the homie output: lowercase, replace every run
of characters outside `[a-z0-9]` by one hyphen, trim hyphens from both
ends.  Strings are handled as their character lists. -/
def normalizeID (s : List Char) : List Char :=
  trimHyphens (collapse false (s.map goToLower))

/-- A dynamic Go value as it can reach `convertType` from a metric's
field list: one of the six field-value kinds, in the concrete dynamic
types the type switch matches (a `time.Time` timestamp satisfies
`fmt.Stringer`), or any other dynamic type, represented by its type
name. -/
inductive GoValue where
  | i8 (v : Int)
  | i16 (v : Int)
  | i32 (v : Int)
  | i64 (v : Int)
  | u8 (v : Nat)
  | u16 (v : Nat)
  | u32 (v : Nat)
  | u64 (v : Nat)
  | f32 (v : Int)
  | f64 (v : Int)
  | bytes (s : String)
  | str (s : String)
  | stringer (s : String)
  | timestamp (s : String)
  | boolean (b : Bool)
  | other (tname : String) (renderable : Bool)
deriving DecidableEq, Repr

/-- The string rendering a value's dynamic type produces (a `Stringer`
carries its own rendering). -/
def goValueRender : GoValue → String
  | .i8 v | .i16 v | .i32 v | .i64 v => toString v
  | .u8 v | .u16 v | .u32 v | .u64 v => toString v
  | .f32 v | .f64 v => toString v
  | .bytes s | .str s | .stringer s | .timestamp s => s
  | .boolean b => cond b "true" "false"
  | .other t _ => t

/-- Modelled from the spec: `internal.ToString` (not among the
sources) renders any of the six supported field-value kinds as a
string; of the other dynamic types it renders some (recorded by the
`renderable` flag - the following type switch still rejects those) and
rejects the rest. -/
def goToString : GoValue → Except String String
  | .other t false => .error ("type " ++ t ++ " unsupported")
  | v => .ok (goValueRender v)

/-- Function `convertType` from the homie output: render the value, then map its
dynamic type to a homie datatype - sized integers to `integer`, floats
to `float`, byte slices, strings and `Stringer`s (hence timestamps) to
`string`, booleans to `boolean`; any other type is an `unknown type`
error. -/
def convertType (value : GoValue) : Except String (String × String) :=
  match goToString value with
  | .error e => .error e
  | .ok v =>
    match value with
    | .i8 _ | .i16 _ | .i32 _ | .i64 _ | .u8 _ | .u16 _ | .u32 _ | .u64 _ =>
      .ok (v, "integer")
    | .f32 _ | .f64 _ => .ok (v, "float")
    | .bytes _ | .str _ | .stringer _ | .timestamp _ => .ok (v, "string")
    | .boolean _ => .ok (v, "boolean")
    | .other t _ => .error ("unknown type " ++ t)

/-- The six supported field-value kinds of the data model: signed
integer, unsigned integer, float, boolean, string (byte slices and
`Stringer`s render as strings) and timestamp.  Only `other` dynamic
types fall outside them. -/
def isSupportedFieldKind : GoValue → Bool
  | .other _ _ => false
  | _ => true

/- ---------------------------------------------------------------
   prometheus_client output: Init and Write
   --------------------------------------------------------------- -/

/-- One second in the integer nanoseconds of `config.Duration`. -/
def oneSecondNs : Int := 1000000000

/-- The `PrometheusClient` configuration fields `Init` reads, plus one
boolean per fallible external step (collector registration, type
mapping initialization, CIDR parsing, password retrieval, TLS setup),
abstracting those libraries. -/
structure PrometheusClient where
  listen : String
  readTimeout : Int
  writeTimeout : Int
  metricVersion : Int
  path : String
  registryOk : Bool
  typeMappingsOk : Bool
  ipRangeOk : Bool
  basicPasswordOk : Bool
  tlsOk : Bool
deriving DecidableEq, Repr

/-- The `http.Server` fields `Init` constructs. -/
structure HTTPServer where
  addr : String
  readTimeout : Int
  writeTimeout : Int
deriving DecidableEq, Repr

/-- Method `PrometheusClient.Init`: after the fallible registry, type-mapping,
CIDR and password steps, an empty `Path` defaults to `/metrics`; after
the fallible TLS step, a read or write timeout below one second is
replaced by the ten-second default; the server is then built from the
resulting fields. -/
def prometheusInit (p : PrometheusClient) :
    Except Unit (PrometheusClient × HTTPServer) :=
  if !p.registryOk then .error ()
  else if !p.typeMappingsOk then .error ()
  else if !p.ipRangeOk then .error ()
  else if !p.basicPasswordOk then .error ()
  else
    let path := if p.path = "" then "/metrics" else p.path
    if !p.tlsOk then .error ()
    else
      let rt := if p.readTimeout < oneSecondNs then 10 * oneSecondNs else p.readTimeout
      let wt := if p.writeTimeout < oneSecondNs then 10 * oneSecondNs else p.writeTimeout
      let q := { p with path := path, readTimeout := rt, writeTimeout := wt }
      .ok (q, { addr := p.listen, readTimeout := rt, writeTimeout := wt })

/- ---------------------------------------------------------------
   influxdb UDP client: Write, as pinned by its tests (udp.go is not
   among the sources; TestUDP_Simple fixes the line-protocol rendering
   and the nil result on success, TestUDP_WriteError the error result
   on a connection failure, TestUDP_ErrorLogging the log-and-skip
   handling of metrics that fail to serialize)
   --------------------------------------------------------------- -/

/-- Line-protocol rendering of a field value (enough for the metrics
the tests exercise: `cpu value=42 0`). -/
def renderFieldVal : FieldVal → String
  | .i64 v => toString v ++ "i"
  | .u64 v => toString v ++ "u"
  | .f64 v => toString v
  | .boolean b => cond b "true" "false"
  | .str s => "\"" ++ s ++ "\""
  | .ts t => toString t

/-- Line-protocol rendering of a metric, as `TestUDP_Simple` pins it
for the test metric (`cpu value=42 0` plus newline). -/
def lineProtocol (m : Metric) : String :=
  let tagStr := String.join (m.tags.map fun kv => "," ++ kv.1 ++ "=" ++ kv.2)
  let fieldStr := String.intercalate "," (m.fields.map fun kv => kv.1 ++ "=" ++ renderFieldVal kv.2)
  m.name ++ tagStr ++ " " ++ fieldStr ++ " " ++ toString m.time ++ "\n"

/-- Serializing one metric for the UDP payload: a metric without fields
has no serializable fields, and a rendering longer than the maximum
payload size needs more space - both are per-metric serialization
errors. -/
def serializeMetric (maxPayloadSize : Option Nat) (m : Metric) : Except String String :=
  if m.fields.isEmpty then .error "no serializable fields"
  else
    let line := lineProtocol m
    match maxPayloadSize with
    | some limit => if limit < line.data.length then .error "need more space" else .ok line
    | none => .ok line

/-- The observable outcome of one UDP `Write` call: the per-metric
serialization failures logged, the error returned to the caller (`none`
is Go `nil`), and the datagrams actually handed to the connection. -/
structure UDPResult where
  logs : List String
  errResult : Option String
  sent : List String
deriving DecidableEq, Repr

/-- The UDP client's `Write` as its tests pin it: each metric of the
batch is serialized in turn; a metric that fails to serialize is logged
and skipped, not reported to the caller; a connection-level write error
aborts the call with that error; otherwise the call returns `nil`. -/
def udpWrite (maxPayloadSize : Option Nat) (connErr : Option String) :
    List Metric → UDPResult
  | [] => ⟨[], none, []⟩
  | m :: rest =>
    match serializeMetric maxPayloadSize m with
    | .error e =>
      let r := udpWrite maxPayloadSize connErr rest
      ⟨("could not serialize metric: " ++ e) :: r.logs, r.errResult, r.sent⟩
    | .ok line =>
      match connErr with
      | some e => ⟨[], some e, []⟩
      | none =>
        let r := udpWrite maxPayloadSize connErr rest
        ⟨r.logs, r.errResult, line :: r.sent⟩

/-- Method `PrometheusClient.Write` forwards the batch to the collector's
`Add` and returns its result unchanged. -/
def prometheusWrite (collectorAdd : List Metric → Except String Unit)
    (metrics : List Metric) : Except String Unit :=
  collectorAdd metrics

/- ---------------------------------------------------------------
   Association-map lemmas
   --------------------------------------------------------------- -/

theorem mapLookup_mapInsert_self (k : String) (v : α) (l : List (String × α)) :
    mapLookup k (mapInsert k v l) = some v := by
  induction l with
  | nil => simp [mapInsert, mapLookup]
  | cons kv rest ih =>
    obtain ⟨k2, v2⟩ := kv
    by_cases h : k2 = k
    · simp [mapInsert, mapLookup, h]
    · simp [mapInsert, mapLookup, h, ih]

theorem mapLookup_mapInsert_ne (k k2 : String) (v : α) (l : List (String × α))
    (h : k2 ≠ k) : mapLookup k2 (mapInsert k v l) = mapLookup k2 l := by
  have hkk : k ≠ k2 := Ne.symm h
  induction l with
  | nil => simp [mapInsert, mapLookup, hkk]
  | cons kv rest ih =>
    obtain ⟨k0, v0⟩ := kv
    by_cases h0 : k0 = k
    · subst h0
      simp [mapInsert, mapLookup, hkk]
    · simp only [mapInsert, if_neg h0]
      by_cases h2 : k0 = k2
      · simp [mapLookup, h2]
      · simp [mapLookup, h2, ih]

theorem mem_mapInsert (k : String) (v : α) (l : List (String × α)) (kv : String × α)
    (h : kv ∈ mapInsert k v l) : kv = (k, v) ∨ kv ∈ l := by
  induction l with
  | nil => simpa [mapInsert] using h
  | cons kv0 rest ih =>
    obtain ⟨k0, v0⟩ := kv0
    by_cases h0 : k0 = k
    · simp only [mapInsert, if_pos h0, List.mem_cons] at h
      rcases h with h | h
      · exact Or.inl h
      · exact Or.inr (List.mem_cons_of_mem _ h)
    · simp only [mapInsert, if_neg h0, List.mem_cons] at h
      rcases h with h | h
      · exact Or.inr (h ▸ List.mem_cons_self _ _)
      · rcases ih h with h2 | h2
        · exact Or.inl h2
        · exact Or.inr (List.mem_cons_of_mem _ h2)

/-- C7: during accumulation, adding a tag or a field whose key is
already present silently overwrites the stored value (last write wins,
the operation is total so it cannot fail), and the values stored under
every other key are untouched. -/
theorem metric_add_overwrites_silently (m : Metric) (k k2 v : String)
    (w : String) (fv fw : FieldVal)
    (hw : mapLookup k m.tags = some w)
    (hfw : mapLookup k m.fields = some fw)
    (h2 : k2 ≠ k) :
    mapLookup k (m.addTag k v).tags = some v ∧
    mapLookup k2 (m.addTag k v).tags = mapLookup k2 m.tags ∧
    mapLookup k (m.addField k fv).fields = some fv ∧
    mapLookup k2 (m.addField k fv).fields = mapLookup k2 m.fields := by
  refine ⟨?_, ?_, ?_, ?_⟩
  · exact mapLookup_mapInsert_self k v m.tags
  · exact mapLookup_mapInsert_ne k k2 v m.tags h2
  · exact mapLookup_mapInsert_self k fv m.fields
  · exact mapLookup_mapInsert_ne k k2 fv m.fields h2

theorem metric_add_overwrites_silently_witness :
    mapLookup "host" (Metric.mk "cpu" [("host", "a")] [("host", FieldVal.i64 1)] 0).tags
      = some "a" ∧
    mapLookup "host" (Metric.mk "cpu" [("host", "a")] [("host", FieldVal.i64 1)] 0).fields
      = some (FieldVal.i64 1) ∧
    ("other" : String) ≠ "host" ∧
    (mapLookup "host" ((Metric.mk "cpu" [("host", "a")] [("host", FieldVal.i64 1)] 0).addTag
        "host" "b").tags = some "b" ∧
      mapLookup "other" ((Metric.mk "cpu" [("host", "a")] [("host", FieldVal.i64 1)] 0).addTag
        "host" "b").tags
        = mapLookup "other" (Metric.mk "cpu" [("host", "a")] [("host", FieldVal.i64 1)] 0).tags ∧
      mapLookup "host" ((Metric.mk "cpu" [("host", "a")] [("host", FieldVal.i64 1)] 0).addField
        "host" (FieldVal.i64 2)).fields = some (FieldVal.i64 2) ∧
      mapLookup "other" ((Metric.mk "cpu" [("host", "a")] [("host", FieldVal.i64 1)] 0).addField
        "host" (FieldVal.i64 2)).fields
        = mapLookup "other" (Metric.mk "cpu" [("host", "a")] [("host", FieldVal.i64 1)] 0).fields) :=
  ⟨by decide, by decide, by decide,
    metric_add_overwrites_silently (Metric.mk "cpu" [("host", "a")] [("host", FieldVal.i64 1)] 0)
      "host" "other" "b" "a" (FieldVal.i64 2) (FieldVal.i64 1)
      (by decide) (by decide) (by decide)⟩

/-- C6: `AddError` records the error for the run and surfaces it after
the run, and it neither prevents nor alters the effect of a subsequent
`AddFields` call on the forwarded metrics. -/
theorem addError_is_nonfatal (acc : Accumulator) (e name : String)
    (tags : List (String × String)) (fields : List (String × FieldVal)) (t : Int) :
    (acc.addError e).errors = acc.errors ++ [e] ∧
    ((acc.addError e).addFields name tags fields t).metrics
      = (acc.addFields name tags fields t).metrics ∧
    ((acc.addError e).addFields name tags fields t).errors = acc.errors ++ [e] := by
  simp [Accumulator.addError, Accumulator.addFields]

/-- C3 counterexample: constructing a metric with an empty field map
succeeds - `metric.New` is total, the metric is built and only fails
later, at serialization time. -/
theorem metric_construction_total_cex :
    metricNew "cpu" [("host", "example.org")] [] 0 =
      Metric.mk "cpu" [("host", "example.org")] [] 0 ∧
    serializeMetric none (metricNew "cpu" [("host", "example.org")] [] 0)
      = Except.error "no serializable fields" := by
  exact ⟨rfl, rfl⟩

/-- C3 amended: construction never fails - `metric.New` records its
arguments unconditionally, also for an empty field map or an empty
name; a metric without fields is only rejected later, when it is
serialized. -/
theorem metric_construction_never_fails (name : String) (tags : List (String × String))
    (fields : List (String × FieldVal)) (t : Int) (h : fields = []) :
    metricNew name tags fields t = Metric.mk name tags fields t ∧
    serializeMetric none (metricNew name tags fields t)
      = Except.error "no serializable fields" := by
  subst h
  exact ⟨rfl, rfl⟩

theorem metric_construction_never_fails_witness :
    ([] : List (String × FieldVal)) = [] ∧
    (metricNew "" [] [] 0 = Metric.mk "" [] [] 0 ∧
      serializeMetric none (metricNew "" [] [] 0) = Except.error "no serializable fields") :=
  ⟨rfl, metric_construction_never_fails "" [] [] 0 rfl⟩

/-- C2 counterexample: the UDP destination's `Write` returns `nil`
(`none`) for a batch containing a metric that cannot be serialized -
the metric is logged and skipped, nothing is sent, yet the caller sees
success, exactly as `TestUDP_ErrorLogging` requires. -/
theorem udp_write_nil_on_serialize_failure_cex :
    (udpWrite none none [metricNew "cpu" [("host", "example.org")] [] 0]).errResult = none ∧
    (udpWrite none none [metricNew "cpu" [("host", "example.org")] [] 0]).sent = [] ∧
    (udpWrite none none [metricNew "cpu" [("host", "example.org")] [] 0]).logs
      = ["could not serialize metric: no serializable fields"] := by
  exact ⟨rfl, rfl, rfl⟩

/-- C2 amended: a non-nil return still marks the whole batch
unacknowledged, but the nil return only means every metric was either
delivered or logged and dropped as unserializable - per-metric
serialization failures do not cause a non-nil return.  With a healthy
connection the UDP `Write` always returns nil and accounts for every
metric of the batch as either a sent datagram or a logged skip. -/
theorem udp_write_accounts_every_metric (maxP : Option Nat) (ms : List Metric) :
    (udpWrite maxP none ms).errResult = none ∧
    (udpWrite maxP none ms).logs.length + (udpWrite maxP none ms).sent.length
      = ms.length := by
  induction ms with
  | nil => simp [udpWrite]
  | cons m rest ih =>
    cases hs : serializeMetric maxP m with
    | error e =>
      simp only [udpWrite, hs]
      refine ⟨ih.1, ?_⟩
      simp only [List.length_cons]
      omega
    | ok line =>
      simp only [udpWrite, hs]
      refine ⟨ih.1, ?_⟩
      simp only [List.length_cons]
      omega

/-- C4: `convertType` succeeds exactly on the six supported field-value
kinds (sized signed and unsigned integers, floats, booleans, strings -
including byte slices and `Stringer`s - and timestamps, which satisfy
`fmt.Stringer`); every other dynamic type is rejected with an error and
the value is never coerced - the rendered value is returned verbatim. -/
theorem convertType_exactly_supported_kinds (v : GoValue) :
    ((convertType v).isOk = true ↔ isSupportedFieldKind v = true) ∧
    (∀ s d, convertType v = Except.ok (s, d) → s = goValueRender v) := by
  cases v <;>
    simp [convertType, goToString, isSupportedFieldKind, goValueRender, Except.isOk,
      Except.toBool]
  case other t r =>
    cases r <;> simp [convertType, goToString, Except.toBool]

theorem Buffer.push_cap (b : Buffer) (m : Metric) : (b.push m).cap = b.cap := by
  unfold Buffer.push
  split <;> rfl

theorem Buffer.pushAll_data (ms : List Metric) (b : Buffer)
    (hlen : b.data.length ≤ b.cap) (hcap : 0 < b.cap) :
    (b.pushAll ms).data = (b.data ++ ms).drop (b.data.length + ms.length - b.cap) ∧
    (b.pushAll ms).cap = b.cap := by
  induction ms generalizing b with
  | nil =>
    have h0 : b.data.length - b.cap = 0 := by omega
    simp [Buffer.pushAll, h0]
  | cons m rest ih =>
    have hstep : b.pushAll (m :: rest) = (b.push m).pushAll rest := rfl
    by_cases h : b.data.length < b.cap
    · have hpush : b.push m = ⟨b.cap, b.data ++ [m]⟩ := by simp [Buffer.push, h]
      have ih2 := ih ⟨b.cap, b.data ++ [m]⟩ (by simp; omega) hcap
      rw [hstep, hpush]
      refine ⟨?_, ih2.2⟩
      rw [ih2.1]
      simp only [List.append_assoc, List.singleton_append, List.length_append,
        List.length_cons, List.length_nil]
      congr 1
      omega
    · have heq : b.data.length = b.cap := by omega
      have hne : b.data ≠ [] := by
        intro hnil
        rw [hnil] at heq
        simp at heq
        omega
      obtain ⟨hd, tl, hdata⟩ := List.exists_cons_of_ne_nil hne
      have hpush : b.push m = ⟨b.cap, b.data.tail ++ [m]⟩ := by simp [Buffer.push, h]
      have htail : b.data.tail = tl := by rw [hdata]; rfl
      have htl : tl.length + 1 = b.cap := by
        have := congrArg List.length hdata
        simp at this
        omega
      have ih2 := ih ⟨b.cap, tl ++ [m]⟩ (by simp; omega) hcap
      rw [hstep, hpush, htail]
      refine ⟨?_, ih2.2⟩
      rw [ih2.1]
      simp only [List.length_append, List.length_cons, List.length_nil,
        List.append_assoc, List.singleton_append]
      rw [hdata]
      simp only [List.cons_append, List.length_cons]
      rw [show tl.length + 1 + rest.length - b.cap = rest.length by omega]
      rw [show tl.length + 1 + (rest.length + 1) - b.cap = rest.length + 1 by omega]
      rw [List.drop_succ_cons]

/-- C1: for a Buffer of capacity `N > 0` under the drop-oldest overflow
policy, the length never exceeds `N` for any sequence of pushes, and
after pushing `N + k` metrics (`k > 0`) into an initially empty buffer
exactly the last `N` pushed metrics are present, in push order. -/
theorem buffer_capacity_and_drop_oldest (cap : Nat) (ms : List Metric)
    (hcap : 0 < cap) :
    (∀ pre : List Metric, ((Buffer.mk cap []).pushAll pre).data.length ≤ cap) ∧
    (cap < ms.length →
      ((Buffer.mk cap []).pushAll ms).data = ms.drop (ms.length - cap)) := by
  constructor
  · intro pre
    have h := Buffer.pushAll_data pre ⟨cap, []⟩ (by simp) hcap
    rw [h.1]
    simp only [List.nil_append, List.length_drop, List.length_nil, Nat.zero_add]
    omega
  · intro _
    have h := Buffer.pushAll_data ms ⟨cap, []⟩ (by simp) hcap
    rw [h.1]
    simp

theorem buffer_capacity_and_drop_oldest_witness :
    0 < 2 ∧
    ((∀ pre : List Metric, ((Buffer.mk 2 []).pushAll pre).data.length ≤ 2) ∧
      (2 < [metricNew "m1" [] [] 0, metricNew "m2" [] [] 0, metricNew "m3" [] [] 0].length →
        ((Buffer.mk 2 []).pushAll
            [metricNew "m1" [] [] 0, metricNew "m2" [] [] 0, metricNew "m3" [] [] 0]).data
          = [metricNew "m1" [] [] 0, metricNew "m2" [] [] 0,
              metricNew "m3" [] [] 0].drop
              ([metricNew "m1" [] [] 0, metricNew "m2" [] [] 0,
                  metricNew "m3" [] [] 0].length - 2))) :=
  ⟨by decide,
    buffer_capacity_and_drop_oldest 2
      [metricNew "m1" [] [] 0, metricNew "m2" [] [] 0, metricNew "m3" [] [] 0]
      (by decide)⟩

/-- C9: whenever `Init` returns nil, the constructed server's read and
write timeouts are at least one second - a configured value below one
second is replaced by the ten-second default, a value of at least one
second is kept - and an empty configured `Path` has been replaced by
`/metrics` while a non-empty one is kept. -/
theorem prometheus_init_timeouts_and_path (p q : PrometheusClient) (srv : HTTPServer)
    (h : prometheusInit p = Except.ok (q, srv)) :
    oneSecondNs ≤ srv.readTimeout ∧ oneSecondNs ≤ srv.writeTimeout ∧
    (p.readTimeout < oneSecondNs → srv.readTimeout = 10 * oneSecondNs) ∧
    (oneSecondNs ≤ p.readTimeout → srv.readTimeout = p.readTimeout) ∧
    (p.writeTimeout < oneSecondNs → srv.writeTimeout = 10 * oneSecondNs) ∧
    (oneSecondNs ≤ p.writeTimeout → srv.writeTimeout = p.writeTimeout) ∧
    q.path ≠ "" ∧ (p.path = "" → q.path = "/metrics") := by
  simp only [prometheusInit] at h
  split at h
  · exact absurd h (by simp)
  split at h
  · exact absurd h (by simp)
  split at h
  · exact absurd h (by simp)
  split at h
  · exact absurd h (by simp)
  split at h
  · exact absurd h (by simp)
  rw [Except.ok.injEq, Prod.mk.injEq] at h
  obtain ⟨hq, hsrv⟩ := h
  subst hq
  subst hsrv
  simp only [oneSecondNs] at *
  by_cases hr : p.readTimeout < oneSecondNs <;>
    by_cases hw : p.writeTimeout < oneSecondNs <;>
      by_cases hp : p.path = "" <;>
        simp only [if_pos, if_neg, hr, hw, hp, if_true, if_false, ite_true, ite_false,
          reduceIte] <;>
          refine ⟨by omega, by omega, by omega, by omega, by omega, by omega, ?_, ?_⟩ <;>
            simp [hp]

theorem prometheus_init_timeouts_and_path_witness :
    prometheusInit
        (PrometheusClient.mk ":9273" 0 2000000000 1 "" true true true true true)
      = Except.ok
          (PrometheusClient.mk ":9273" 10000000000 2000000000 1 "/metrics"
            true true true true true,
           HTTPServer.mk ":9273" 10000000000 2000000000) ∧
    (oneSecondNs ≤ (10000000000 : Int) ∧ oneSecondNs ≤ (2000000000 : Int) ∧
      ((0 : Int) < oneSecondNs → (10000000000 : Int) = 10 * oneSecondNs) ∧
      (oneSecondNs ≤ (0 : Int) → (10000000000 : Int) = (0 : Int)) ∧
      ((2000000000 : Int) < oneSecondNs → (2000000000 : Int) = 10 * oneSecondNs) ∧
      (oneSecondNs ≤ (2000000000 : Int) → (2000000000 : Int) = (2000000000 : Int)) ∧
      ("/metrics" : String) ≠ "" ∧ (("" : String) = "" → ("/metrics" : String) = "/metrics")) :=
  ⟨by rfl,
    prometheus_init_timeouts_and_path
      (PrometheusClient.mk ":9273" 0 2000000000 1 "" true true true true true)
      (PrometheusClient.mk ":9273" 10000000000 2000000000 1 "/metrics"
        true true true true true)
      (HTTPServer.mk ":9273" 10000000000 2000000000)
      (by rfl)⟩

/- ---------------------------------------------------------------
   The string order is total, transitive and antisymmetric
   --------------------------------------------------------------- -/

theorem charListLe_total (a b : List Char) :
    charListLe a b = true ∨ charListLe b a = true := by
  induction a generalizing b with
  | nil => exact Or.inl rfl
  | cons x xs ih =>
    cases b with
    | nil => exact Or.inr rfl
    | cons y ys =>
      by_cases h1 : x.val.toNat < y.val.toNat
      · exact Or.inl (by simp [charListLe, h1])
      · by_cases h2 : y.val.toNat < x.val.toNat
        · exact Or.inr (by simp [charListLe, h2])
        · rcases ih ys with h | h
          · exact Or.inl (by simp [charListLe, h1, h2, h])
          · exact Or.inr (by simp [charListLe, h1, h2, h])

theorem charListLe_antisymm (a b : List Char) (h1 : charListLe a b = true)
    (h2 : charListLe b a = true) : a = b := by
  induction a generalizing b with
  | nil =>
    cases b with
    | nil => rfl
    | cons y ys => simp [charListLe] at h2
  | cons x xs ih =>
    cases b with
    | nil => simp [charListLe] at h1
    | cons y ys =>
      by_cases hxy : x.val.toNat < y.val.toNat
      · have hyx : ¬y.val.toNat < x.val.toNat := by omega
        simp [charListLe, hxy, hyx] at h2
      · by_cases hyx : y.val.toNat < x.val.toNat
        · simp [charListLe, hxy, hyx] at h1
        · have hc : x = y := Char.ext (UInt32.toNat.inj (by omega))
          subst hc
          have h1a : charListLe xs ys = true := by
            simpa [charListLe, hxy, hyx] using h1
          have h2a : charListLe ys xs = true := by
            simpa [charListLe, hxy, hyx] using h2
          rw [ih ys h1a h2a]

theorem charListLe_trans (a b c : List Char) (h1 : charListLe a b = true)
    (h2 : charListLe b c = true) : charListLe a c = true := by
  induction a generalizing b c with
  | nil => rfl
  | cons x xs ih =>
    cases b with
    | nil => simp [charListLe] at h1
    | cons y ys =>
      cases c with
      | nil => simp [charListLe] at h2
      | cons z zs =>
        by_cases hxy : x.val.toNat < y.val.toNat
        · by_cases hyz : y.val.toNat < z.val.toNat
          · simp [charListLe, show x.val.toNat < z.val.toNat by omega]
          · by_cases hzy : z.val.toNat < y.val.toNat
            · simp [charListLe, hyz, hzy] at h2
            · simp [charListLe, show x.val.toNat < z.val.toNat by omega]
        · by_cases hyx : y.val.toNat < x.val.toNat
          · simp [charListLe, hxy, hyx] at h1
          · have h1a : charListLe xs ys = true := by
              simpa [charListLe, hxy, hyx] using h1
            by_cases hyz : y.val.toNat < z.val.toNat
            · simp [charListLe, show x.val.toNat < z.val.toNat by omega]
            · by_cases hzy : z.val.toNat < y.val.toNat
              · simp [charListLe, hyz, hzy] at h2
              · have h2a : charListLe ys zs = true := by
                  simpa [charListLe, hyz, hzy] using h2
                have hxz : ¬x.val.toNat < z.val.toNat := by omega
                have hzx : ¬z.val.toNat < x.val.toNat := by omega
                simp [charListLe, hxz, hzx, ih ys zs h1a h2a]

theorem sortStrings_eq_of_perm (l1 l2 : List String) (h : l1.Perm l2) :
    sortStrings l1 = sortStrings l2 := by
  haveI : IsTotal String strLeRel :=
    ⟨fun a b => charListLe_total a.data b.data⟩
  haveI : IsTrans String strLeRel :=
    ⟨fun a b c h1 h2 => charListLe_trans a.data b.data c.data h1 h2⟩
  haveI : IsAntisymm String strLeRel :=
    ⟨fun a b h1 h2 => String.ext (charListLe_antisymm a.data b.data h1 h2)⟩
  exact List.eq_of_perm_of_sorted
    ((List.perm_insertionSort _ _).trans (h.trans (List.perm_insertionSort _ _).symm))
    (List.sorted_insertionSort _ _) (List.sorted_insertionSort _ _)

/-- C5 counterexample: two metrics with the same name and the distinct
tag mappings `a=b,c=d` versus `a=b` plus `c=d` produce the same series
key - the comma-joined sorted `k=v` tagset identifies them, although
their tag mappings differ (the second maps `c`, the first does not). -/
theorem series_key_collision_cex :
    seriesKey [("a", "b,c=d")] = seriesKey [("a", "b"), ("c", "d")] ∧
    mapLookup "c" [("a", "b,c=d")] = (none : Option String) ∧
    mapLookup "c" [("a", "b"), ("c", "d")] = some "d" := by
  exact ⟨by decide, by decide, by decide⟩

/-- C5 amended: equal names and equal tag mappings always give the same
series identity - the series key is invariant under reordering the tag
mapping, whose unique keys are deterministically sorted.  The converse
direction fails: distinct tag mappings can collide on the same series
key when tag values contain `=` or `,` (see the counterexample), so
series identity does not imply equal tag mappings. -/
theorem series_identity_from_name_and_tags (n1 n2 : String)
    (t1 t2 : List (String × String)) (hn : n1 = n2) (ht : t1.Perm t2) :
    n1 = n2 ∧ seriesKey t1 = seriesKey t2 := by
  refine ⟨hn, ?_⟩
  unfold seriesKey
  rw [sortStrings_eq_of_perm _ _ (ht.map fun kv => kv.1 ++ "=" ++ kv.2)]

theorem series_identity_from_name_and_tags_witness :
    ("cpu" : String) = "cpu" ∧
    ([("a", "1"), ("b", "2")] : List (String × String)).Perm [("b", "2"), ("a", "1")] ∧
    (("cpu" : String) = "cpu" ∧
      seriesKey [("a", "1"), ("b", "2")] = seriesKey [("b", "2"), ("a", "1")]) :=
  ⟨rfl, List.Perm.swap ("b", "2") ("a", "1") [],
    series_identity_from_name_and_tags "cpu" "cpu" [("a", "1"), ("b", "2")]
      [("b", "2"), ("a", "1")] rfl (List.Perm.swap ("b", "2") ("a", "1") [])⟩

/- ---------------------------------------------------------------
   createPoints: grouping and field conversion
   --------------------------------------------------------------- -/

theorem decorate_fields (dims : List (String × DimValue)) (p : Point) :
    (decorate dims p).fields = p.fields := by
  induction dims generalizing p with
  | nil => rfl
  | cons kv rest ih =>
    obtain ⟨k, dv⟩ := kv
    cases dv with
    | str v => exact (ih _).trans rfl
    | smap lm =>
      refine (ih _).trans ?_
      dsimp only
      split <;> rfl
    | other => exact (ih _).trans rfl

theorem mapLookup_isSome_iff (k : String) (l : List (String × α)) :
    (mapLookup k l).isSome = true ↔ k ∈ l.map Prod.fst := by
  induction l with
  | nil => simp [mapLookup]
  | cons kv rest ih =>
    obtain ⟨k0, v0⟩ := kv
    by_cases h : k0 = k
    · subst h
      simp [mapLookup]
    · simp [mapLookup, h, ih, Ne.symm h]

theorem addFieldAt_keys (key fk : String) (v : FieldVal) (pts : List (String × Point)) :
    (addFieldAt key fk v pts).map Prod.fst = pts.map Prod.fst := by
  induction pts with
  | nil => rfl
  | cons kp rest ih =>
    obtain ⟨k0, p0⟩ := kp
    by_cases h : k0 = key
    · simp [addFieldAt, h]
    · simp [addFieldAt, h, ih]

theorem insertDatapoint_keys (pts : List (String × Point)) (dp : Datapoint) :
    (insertDatapoint pts dp).map Prod.fst =
      if seriesKey dp.tags ∈ pts.map Prod.fst then pts.map Prod.fst
      else pts.map Prod.fst ++ [seriesKey dp.tags] := by
  by_cases h : seriesKey dp.tags ∈ pts.map Prod.fst
  · have hs : (mapLookup (seriesKey dp.tags) pts).isSome = true :=
      (mapLookup_isSome_iff _ _).mpr h
    simp [insertDatapoint, hs, addFieldAt_keys, h]
  · have hs : (mapLookup (seriesKey dp.tags) pts).isSome = false := by
      rw [Bool.eq_false_iff]
      intro hc
      exact h ((mapLookup_isSome_iff _ _).mp hc)
    simp [insertDatapoint, hs, h]

theorem foldl_insertDatapoint_keys_nodup (dps : List Datapoint)
    (pts : List (String × Point)) (h : (pts.map Prod.fst).Nodup) :
    ((dps.foldl insertDatapoint pts).map Prod.fst).Nodup := by
  induction dps generalizing pts with
  | nil => exact h
  | cons dp rest ih =>
    rw [List.foldl_cons]
    apply ih
    rw [insertDatapoint_keys]
    split
    · exact h
    · next hmem =>
      rw [List.nodup_append]
      refine ⟨h, List.nodup_singleton _, ?_⟩
      intro a ha hb
      rw [List.mem_singleton] at hb
      subst hb
      exact hmem ha

theorem foldl_insertDatapoint_keys_mem (dps : List Datapoint)
    (pts : List (String × Point)) (k : String) :
    k ∈ (dps.foldl insertDatapoint pts).map Prod.fst ↔
      k ∈ pts.map Prod.fst ∨ k ∈ dps.map fun dp => seriesKey dp.tags := by
  induction dps generalizing pts with
  | nil => simp
  | cons dp rest ih =>
    rw [List.foldl_cons, ih, insertDatapoint_keys]
    split
    · next hmem =>
      simp only [List.map_cons, List.mem_cons]
      constructor
      · rintro (h | h)
        · exact Or.inl h
        · exact Or.inr (Or.inr h)
      · rintro (h | h | h)
        · exact Or.inl h
        · exact Or.inl (h ▸ hmem)
        · exact Or.inr h
    · simp only [List.map_cons, List.mem_cons, List.mem_append, List.mem_singleton]
      tauto

theorem createPointsMap_length (m : Metrics) :
    (createPointsMap m).length
      = ((m.datapoints.map fun dp => seriesKey dp.tags).dedup).length := by
  have hnd : ((createPointsMap m).map Prod.fst).Nodup :=
    foldl_insertDatapoint_keys_nodup m.datapoints [] (by simp)
  have hmem : ∀ k, k ∈ (createPointsMap m).map Prod.fst ↔
      k ∈ m.datapoints.map fun dp => seriesKey dp.tags := by
    intro k
    rw [createPointsMap, foldl_insertDatapoint_keys_mem]
    simp
  have h1 : (createPointsMap m).length = ((createPointsMap m).map Prod.fst).length := by
    simp
  have h2 : ((createPointsMap m).map Prod.fst).toFinset
      = ((m.datapoints.map fun dp => seriesKey dp.tags).dedup).toFinset := by
    ext k
    simp only [List.mem_toFinset, List.mem_dedup]
    exact hmem k
  rw [h1, ← List.toFinset_card_of_nodup hnd, h2,
    List.toFinset_card_of_nodup (List.nodup_dedup _)]

theorem addFieldAt_mem (key fk : String) (v : FieldVal) (pts : List (String × Point))
    (kp : String × Point) (h : kp ∈ addFieldAt key fk v pts) :
    kp ∈ pts ∨ ∃ p, (kp.1, p) ∈ pts ∧ kp.2 = { p with fields := mapInsert fk v p.fields } := by
  induction pts with
  | nil => simp [addFieldAt] at h
  | cons kp0 rest ih =>
    obtain ⟨k0, p0⟩ := kp0
    by_cases hk : k0 = key
    · simp only [addFieldAt, if_pos hk, List.mem_cons] at h
      rcases h with h | h
      · subst h
        exact Or.inr ⟨p0, List.mem_cons_self _ _, rfl⟩
      · exact Or.inl (List.mem_cons_of_mem _ h)
    · simp only [addFieldAt, if_neg hk, List.mem_cons] at h
      rcases h with h | h
      · exact Or.inl (h ▸ List.mem_cons_self _ _)
      · rcases ih h with h2 | ⟨p, hp, hkp⟩
        · exact Or.inl (List.mem_cons_of_mem _ h2)
        · exact Or.inr ⟨p, List.mem_cons_of_mem _ hp, hkp⟩

theorem insertDatapoint_fields_from (pts : List (String × Point)) (dp : Datapoint)
    (D : List Datapoint) (hdp : dp ∈ D)
    (hinv : ∀ kp ∈ pts, ∀ fv ∈ (Prod.snd kp).fields,
      ∃ d ∈ D, fv.1 = fieldKeyOf d ∧ fv.2 = storedVal d) :
    ∀ kp ∈ insertDatapoint pts dp, ∀ fv ∈ (Prod.snd kp).fields,
      ∃ d ∈ D, fv.1 = fieldKeyOf d ∧ fv.2 = storedVal d := by
  intro kp hkp fv hfv
  simp only [insertDatapoint] at hkp
  split at hkp
  · rcases addFieldAt_mem _ _ _ _ _ hkp with h | ⟨p, hp, hkp2⟩
    · exact hinv kp h fv hfv
    · rw [hkp2] at hfv
      rcases mem_mapInsert _ _ _ _ hfv with h | h
      · exact ⟨dp, hdp, by rw [h], by rw [h]⟩
      · exact hinv (kp.1, p) hp fv h
  · rw [List.mem_append, List.mem_singleton] at hkp
    rcases hkp with h | h
    · exact hinv kp h fv hfv
    · subst h
      simp only [List.mem_singleton] at hfv
      subst hfv
      exact ⟨dp, hdp, rfl, rfl⟩

theorem foldl_insertDatapoint_fields_from (dps : List Datapoint) (D : List Datapoint)
    (hsub : ∀ d ∈ dps, d ∈ D) (pts : List (String × Point))
    (hinv : ∀ kp ∈ pts, ∀ fv ∈ (Prod.snd kp).fields,
      ∃ d ∈ D, fv.1 = fieldKeyOf d ∧ fv.2 = storedVal d) :
    ∀ kp ∈ dps.foldl insertDatapoint pts, ∀ fv ∈ (Prod.snd kp).fields,
      ∃ d ∈ D, fv.1 = fieldKeyOf d ∧ fv.2 = storedVal d := by
  induction dps generalizing pts with
  | nil => exact hinv
  | cons dp rest ih =>
    rw [List.foldl_cons]
    exact ih (fun d hd => hsub d (List.mem_cons_of_mem _ hd)) _
      (insertDatapoint_fields_from pts dp D (hsub dp (List.mem_cons_self _ _)) hinv)

/-- C10 counterexample: the `dcos_metrics_module_` marker is trimmed
only after the `_bytes` suffix logic runs, so the byte-unit datapoint
named `dcos.metrics.module.bytes` is stored under the key `bytes`,
which does not end in `_bytes` - while the value is still stored as a
signed integer. -/
theorem createPoints_bytes_suffix_cex :
    createPoints
        (Metrics.mk [Datapoint.mk "dcos.metrics.module.bytes" [] "bytes" 7] [])
      = [Point.mk [] [] [("bytes", FieldVal.i64 7)]] ∧
    goHasSuffix "_bytes"
        (fieldKeyOf (Datapoint.mk "dcos.metrics.module.bytes" [] "bytes" 7)) = false := by
  exact ⟨by decide, by decide⟩

/-- C10 amended: datapoints with equal sorted tag sets are merged into
a single point (the number of points equals the number of distinct
series keys), every stored field of every point comes from one of the
datapoints - a byte-unit datapoint as a signed integer under its
computed key (dots to underscores, a `_bytes` suffix appended when not
already present, then a leading `dcos_metrics_module_` trimmed - so
that key can lose its `_bytes` ending when the trim cuts into it), any
other datapoint as its float value unchanged. -/
theorem createPoints_groups_and_converts (m : Metrics) (p : Point)
    (fv : String × FieldVal) (hp : p ∈ createPoints m) (hfv : fv ∈ p.fields) :
    (createPoints m).length
      = ((m.datapoints.map fun dp => seriesKey dp.tags).dedup).length ∧
    ∃ dp ∈ m.datapoints, fv.1 = fieldKeyOf dp ∧ fv.2 = storedVal dp ∧
      (dp.unit = "bytes" → fv.2 = FieldVal.i64 dp.value) ∧
      (dp.unit ≠ "bytes" → fv.2 = FieldVal.f64 dp.value) := by
  constructor
  · rw [show (createPoints m).length = (createPointsMap m).length by
      simp [createPoints]]
    exact createPointsMap_length m
  · simp only [createPoints, List.mem_map] at hp
    obtain ⟨kp, hkp, hpd⟩ := hp
    rw [← hpd, decorate_fields] at hfv
    obtain ⟨dp, hdp, h1, h2⟩ := foldl_insertDatapoint_fields_from m.datapoints
      m.datapoints (fun d hd => hd) [] (by simp) kp hkp fv hfv
    refine ⟨dp, hdp, h1, h2, ?_, ?_⟩
    · intro hb
      rw [h2]
      simp [storedVal, hb]
    · intro hb
      rw [h2]
      simp [storedVal, hb]

theorem createPoints_groups_and_converts_witness :
    Point.mk [("h", "a")] []
        [("cpu_load", FieldVal.f64 3), ("mem_used_bytes", FieldVal.i64 5)]
      ∈ createPoints
        (Metrics.mk
          [Datapoint.mk "cpu.load" [("h", "a")] "count" 3,
           Datapoint.mk "mem.used" [("h", "a")] "bytes" 5] []) ∧
    ("mem_used_bytes", FieldVal.i64 5)
      ∈ (Point.mk [("h", "a")] []
          [("cpu_load", FieldVal.f64 3), ("mem_used_bytes", FieldVal.i64 5)]).fields ∧
    ((createPoints
        (Metrics.mk
          [Datapoint.mk "cpu.load" [("h", "a")] "count" 3,
           Datapoint.mk "mem.used" [("h", "a")] "bytes" 5] [])).length
      = (((Metrics.mk
          [Datapoint.mk "cpu.load" [("h", "a")] "count" 3,
           Datapoint.mk "mem.used" [("h", "a")] "bytes" 5] []).datapoints.map
            fun dp => seriesKey dp.tags).dedup).length ∧
      ∃ dp ∈ (Metrics.mk
          [Datapoint.mk "cpu.load" [("h", "a")] "count" 3,
           Datapoint.mk "mem.used" [("h", "a")] "bytes" 5] []).datapoints,
        ("mem_used_bytes", FieldVal.i64 5).1 = fieldKeyOf dp ∧
        ("mem_used_bytes", FieldVal.i64 5).2 = storedVal dp ∧
        (dp.unit = "bytes" → ("mem_used_bytes", FieldVal.i64 5).2 = FieldVal.i64 dp.value) ∧
        (dp.unit ≠ "bytes" → ("mem_used_bytes", FieldVal.i64 5).2 = FieldVal.f64 dp.value)) :=
  ⟨by decide, by decide,
    createPoints_groups_and_converts
      (Metrics.mk
        [Datapoint.mk "cpu.load" [("h", "a")] "count" 3,
         Datapoint.mk "mem.used" [("h", "a")] "bytes" 5] [])
      (Point.mk [("h", "a")] []
        [("cpu_load", FieldVal.f64 3), ("mem_used_bytes", FieldVal.i64 5)])
      ("mem_used_bytes", FieldVal.i64 5) (by decide) (by decide)⟩

/- ---------------------------------------------------------------
   normalizeID: alphabet, trimming and idempotence
   --------------------------------------------------------------- -/

theorem head?_dropWhile_eq_some (p : α → Bool) (l : List α) (a : α)
    (h : (l.dropWhile p).head? = some a) : p a = false := by
  have hm := List.head?_dropWhile_not p l
  rw [h] at hm
  exact hm

theorem mem_collapse (b : Bool) (l : List Char) (c : Char)
    (h : c ∈ collapse b l) : isIDChar c = true ∨ c = '-' := by
  induction l generalizing b with
  | nil => simp [collapse] at h
  | cons x xs ih =>
    by_cases hx : isIDChar x
    · rw [show collapse b (x :: xs) = x :: collapse false xs by
        simp [collapse, hx]] at h
      rcases List.mem_cons.mp h with h | h
      · exact Or.inl (h ▸ hx)
      · exact ih false h
    · cases b with
      | true =>
        rw [show collapse true (x :: xs) = collapse true xs by
          simp [collapse, hx]] at h
        exact ih true h
      | false =>
        rw [show collapse false (x :: xs) = '-' :: collapse true xs by
          simp [collapse, hx]] at h
        rcases List.mem_cons.mp h with h | h
        · exact Or.inr h
        · exact ih true h

theorem collapse_true_head (l : List Char) (a : Char)
    (h : (collapse true l).head? = some a) : isIDChar a = true := by
  induction l with
  | nil => simp [collapse] at h
  | cons x xs ih =>
    by_cases hx : isIDChar x
    · rw [show collapse true (x :: xs) = x :: collapse false xs by
        simp [collapse, hx]] at h
      simp only [List.head?_cons, Option.some.injEq] at h
      exact h ▸ hx
    · rw [show collapse true (x :: xs) = collapse true xs by
        simp [collapse, hx]] at h
      exact ih h

theorem collapse_chain (b : Bool) (l : List Char) :
    (collapse b l).Chain' (fun a c => ¬(a = '-' ∧ c = '-')) := by
  induction l generalizing b with
  | nil => simp [collapse]
  | cons x xs ih =>
    by_cases hx : isIDChar x
    · rw [show collapse b (x :: xs) = x :: collapse false xs by
        simp [collapse, hx]]
      refine List.chain'_cons'.mpr ⟨?_, ih false⟩
      rintro y _ ⟨hxd, _⟩
      rw [hxd] at hx
      exact absurd hx (by decide)
    · cases b with
      | true =>
        rw [show collapse true (x :: xs) = collapse true xs by
          simp [collapse, hx]]
        exact ih true
      | false =>
        rw [show collapse false (x :: xs) = '-' :: collapse true xs by
          simp [collapse, hx]]
        refine List.chain'_cons'.mpr ⟨?_, ih true⟩
        rintro y hy ⟨_, hyd⟩
        have hid := collapse_true_head xs y hy
        rw [hyd] at hid
        exact absurd hid (by decide)

theorem collapse_fixed (l : List Char)
    (halpha : ∀ c ∈ l, isIDChar c = true ∨ c = '-')
    (hchain : l.Chain' (fun a c => ¬(a = '-' ∧ c = '-'))) :
    collapse false l = l := by
  induction l with
  | nil => rfl
  | cons x xs ih =>
    rcases halpha x (List.mem_cons_self _ _) with hx | hx
    · rw [show collapse false (x :: xs) = x :: collapse false xs by
        simp [collapse, hx]]
      rw [ih (fun c hc => halpha c (List.mem_cons_of_mem _ hc)) hchain.tail]
    · subst hx
      rw [show collapse false ('-' :: xs) = '-' :: collapse true xs by
        simp [collapse, show isIDChar '-' = false by decide]]
      have hxs : collapse true xs = collapse false xs := by
        cases xs with
        | nil => rfl
        | cons y ys =>
          have hy : ¬(('-' : Char) = '-' ∧ y = '-') := (List.chain'_cons.mp hchain).1
          have hyne : y ≠ '-' := fun he => hy ⟨rfl, he⟩
          have hyid : isIDChar y = true := by
            rcases halpha y (by simp) with h | h
            · exact h
            · exact absurd h hyne
          simp [collapse, hyid]
      rw [hxs, ih (fun c hc => halpha c (List.mem_cons_of_mem _ hc)) hchain.tail]

theorem goToLower_fixed (c : Char) (h : isIDChar c = true ∨ c = '-') :
    goToLower c = c := by
  rcases h with h | h
  · simp only [isIDChar, Bool.or_eq_true, Bool.and_eq_true, decide_eq_true_eq] at h
    unfold goToLower Char.toLower
    show (if c.toNat ≥ 65 ∧ c.toNat ≤ 90 then Char.ofNat (c.toNat + 32) else c) = c
    rw [if_neg (by omega)]
  · subst h
    rfl

theorem mem_trimHyphens (l : List Char) (c : Char) (h : c ∈ trimHyphens l) : c ∈ l := by
  unfold trimHyphens at h
  rw [List.mem_reverse] at h
  have h2 := (List.dropWhile_suffix (fun x => x == '-')).subset h
  rw [List.mem_reverse] at h2
  exact (List.dropWhile_suffix (fun x => x == '-')).subset h2

theorem trimHyphens_head (l : List Char) (a : Char)
    (h : (trimHyphens l).head? = some a) : (a == '-') = false := by
  unfold trimHyphens at h
  obtain ⟨s, hs⟩ := List.dropWhile_suffix (l := (l.dropWhile (· == '-')).reverse)
    (fun x => x == '-')
  have hl : l.dropWhile (· == '-')
      = ((l.dropWhile (· == '-')).reverse.dropWhile (· == '-')).reverse ++ s.reverse := by
    have hrev := congrArg List.reverse hs
    simpa using hrev.symm
  have hhead : (l.dropWhile (· == '-')).head? = some a := by
    rw [hl, List.head?_append, h]
    rfl
  exact head?_dropWhile_eq_some (fun x => x == '-') l a hhead

theorem trimHyphens_last (l : List Char) (a : Char)
    (h : (trimHyphens l).getLast? = some a) : (a == '-') = false := by
  unfold trimHyphens at h
  rw [List.getLast?_reverse] at h
  exact head?_dropWhile_eq_some (fun x => x == '-') (l.dropWhile (· == '-')).reverse a h

theorem trimHyphens_chain (l : List Char)
    (h : l.Chain' (fun a c => ¬(a = '-' ∧ c = '-'))) :
    (trimHyphens l).Chain' (fun a c => ¬(a = '-' ∧ c = '-')) := by
  unfold trimHyphens
  have h1 : (l.dropWhile (· == '-')).Chain' (fun a c => ¬(a = '-' ∧ c = '-')) :=
    h.suffix (List.dropWhile_suffix _)
  have h2 : ((l.dropWhile (· == '-')).reverse).Chain' (fun a c => ¬(a = '-' ∧ c = '-')) := by
    rw [List.chain'_reverse]
    exact h1.imp fun a b hr => fun hx => hr ⟨hx.2, hx.1⟩
  have h3 := h2.suffix (List.dropWhile_suffix (fun x => x == '-'))
  rw [List.chain'_reverse]
  exact h3.imp fun a b hr => fun hx => hr ⟨hx.2, hx.1⟩

theorem trimHyphens_fixed (l : List Char)
    (hh : ∀ a, l.head? = some a → (a == '-') = false)
    (hl : ∀ a, l.getLast? = some a → (a == '-') = false) :
    trimHyphens l = l := by
  have h1 : l.dropWhile (· == '-') = l := by
    cases l with
    | nil => rfl
    | cons x xs =>
      have hx := hh x rfl
      simp [List.dropWhile_cons, hx]
  unfold trimHyphens
  rw [h1]
  have h2 : l.reverse.dropWhile (· == '-') = l.reverse := by
    cases hr : l.reverse with
    | nil => rfl
    | cons x xs =>
      have hx : l.getLast? = some x := by
        rw [← List.head?_reverse, hr]
        rfl
      have := hl x hx
      simp [List.dropWhile_cons, this]
  rw [h2, List.reverse_reverse]

/-- C8: `normalizeID` returns a string of lowercase ASCII letters,
digits and hyphens only, with no leading and no trailing hyphen, and it
is idempotent. -/
theorem normalizeID_normal_form (s : List Char) :
    (∀ c ∈ normalizeID s, isIDChar c = true ∨ c = '-') ∧
    (∀ a, (normalizeID s).head? = some a → a ≠ '-') ∧
    (∀ a, (normalizeID s).getLast? = some a → a ≠ '-') ∧
    normalizeID (normalizeID s) = normalizeID s := by
  have halpha : ∀ c ∈ normalizeID s, isIDChar c = true ∨ c = '-' := by
    intro c hc
    exact mem_collapse false _ c (mem_trimHyphens _ c hc)
  have hhead : ∀ a, (normalizeID s).head? = some a → (a == '-') = false :=
    fun a ha => trimHyphens_head _ a ha
  have hlast : ∀ a, (normalizeID s).getLast? = some a → (a == '-') = false :=
    fun a ha => trimHyphens_last _ a ha
  have hchain : (normalizeID s).Chain' (fun a c => ¬(a = '-' ∧ c = '-')) :=
    trimHyphens_chain _ (collapse_chain false _)
  refine ⟨halpha, ?_, ?_, ?_⟩
  · intro a ha he
    have := hhead a ha
    rw [he] at this
    simp at this
  · intro a ha he
    have := hlast a ha
    rw [he] at this
    simp at this
  · show trimHyphens (collapse false (List.map goToLower (normalizeID s))) = normalizeID s
    rw [show List.map goToLower (normalizeID s) = normalizeID s from
      (List.map_congr_left fun c hc =>
        (goToLower_fixed c (halpha c hc)).trans rfl).trans (List.map_id _)]
    rw [collapse_fixed _ halpha hchain]
    exact trimHyphens_fixed _ hhead hlast
